import Mathlib

/-!
Verification of the download orchestration engine in `downloader.py`:
range planning, part-file merging, worker fetch loops, cancellation
handling, the size probe and cleanup.  The file system is modelled as a
partial map from path strings to byte lists; one byte is a `Nat`.
-/

/-- File system model: a path either holds a file (its byte contents) or
nothing.  `downloader.py` only ever creates, appends to, reads, tests and
removes whole files, so a partial map suffices. -/
def FS : Type := String → Option (List Nat)

/-- Model of `open(p, "wb")` followed by writing `v`: the file is created or
truncated, ending with exactly the bytes `v`. -/
def fsWrite (fs : FS) (p : String) (v : List Nat) : FS :=
  fun q => if q = p then some v else fs q

/-- Model of appending bytes `v` to the already-open file `p` (the merge loop
and the chunk loops hold the handle open and write incrementally). -/
def fsAppend (fs : FS) (p : String) (v : List Nat) : FS :=
  fun q => if q = p then some (((fs p).getD []) ++ v) else fs q

/-- Model of `os.remove(p)`. -/
def fsRemove (fs : FS) (p : String) : FS :=
  fun q => if q = p then none else fs q

/-- Decimal digit list of `n` rendered by Python's `str`, most significant
first; written with explicit fuel so it is structural (the first argument
strictly bounds the value, and `n / 10 < n` for `n > 0`). -/
def natStrAux : Nat → Nat → List Char
  | 0, _ => []
  | _ + 1, 0 => []
  | fuel + 1, n + 1 =>
      natStrAux fuel ((n + 1) / 10) ++ [Nat.digitChar ((n + 1) % 10)]

/-- Model of Python's `str(n)` for a natural number: its decimal numeral,
with `str(0) = "0"`. -/
def natStr (n : Nat) : String :=
  if n = 0 then "0" else ⟨natStrAux n n⟩

/-- Part-file naming from `downloader.py`: `f"{save_path}.part{part_num}"`
(lines 560, 586, 613). -/
def partPath (save_path : String) (part_num : Nat) : String :=
  save_path ++ ".part" ++ natStr part_num

theorem natStrAux_eq_digits (fuel : Nat) :
    ∀ n, n ≤ fuel →
      natStrAux fuel n = ((Nat.digits 10 n).map Nat.digitChar).reverse := by
  induction fuel with
  | zero =>
      intro n hn
      interval_cases n
      simp [natStrAux]
  | succ fuel ih =>
      intro n hn
      match n with
      | 0 => simp [natStrAux]
      | m + 1 =>
          rw [natStrAux, Nat.digits_def' (by norm_num : 1 < 10) (Nat.succ_pos m)]
          rw [ih ((m + 1) / 10) ?_]
          · simp
          · have h1 : (m + 1) / 10 < m + 1 := Nat.div_lt_self (Nat.succ_pos m) (by norm_num)
            omega

theorem digitChar_inj_lt10 : ∀ a < 10, ∀ b < 10,
    Nat.digitChar a = Nat.digitChar b → a = b := by decide

theorem map_digitChar_inj : ∀ l₁ l₂ : List Nat,
    (∀ x ∈ l₁, x < 10) → (∀ x ∈ l₂, x < 10) →
    l₁.map Nat.digitChar = l₂.map Nat.digitChar → l₁ = l₂ := by
  intro l₁
  induction l₁ with
  | nil => intro l₂ _ _ h; cases l₂ <;> simp_all
  | cons a l ih =>
      intro l₂ h₁ h₂ h
      cases l₂ with
      | nil => simp_all
      | cons b l' =>
          simp only [List.map_cons, List.cons.injEq] at h
          have hab : a = b :=
            digitChar_inj_lt10 a (h₁ a (by simp)) b (h₂ b (by simp)) h.1
          have : l = l' := by
            refine ih l' (fun x hx => h₁ x (by simp [hx]))
              (fun x hx => h₂ x (by simp [hx])) h.2
          simp [hab, this]

theorem natStr_injective : Function.Injective natStr := by
  intro m n h
  unfold natStr at h
  by_cases hm : m = 0 <;> by_cases hn : n = 0 <;> simp [hm, hn] at h ⊢
  · -- m = 0, n ≠ 0 : "0" would be the numeral of a positive number
    exfalso
    rw [natStrAux_eq_digits n n le_rfl] at h
    have hdata : ['0'] = ((Nat.digits 10 n).map Nat.digitChar).reverse := by
      have := congrArg String.data h
      simpa using this
    have hd : (Nat.digits 10 n).map Nat.digitChar = ['0'] := by
      have := congrArg List.reverse hdata
      simpa using this.symm
    have : Nat.digits 10 n = [0] := by
      refine map_digitChar_inj _ [0] (fun x hx => Nat.digits_lt_base (by norm_num) hx)
        (by simp) ?_
      simpa [Nat.digitChar] using hd
    have : n = 0 := by
      have h0 := Nat.ofDigits_digits 10 n
      rw [this] at h0
      simpa [Nat.ofDigits] using h0.symm
    exact hn this
  · -- m ≠ 0, n = 0 : symmetric
    exfalso
    rw [natStrAux_eq_digits m m le_rfl] at h
    have hdata : ((Nat.digits 10 m).map Nat.digitChar).reverse = ['0'] := by
      have := congrArg String.data h
      simpa using this
    have hd : (Nat.digits 10 m).map Nat.digitChar = ['0'] := by
      have := congrArg List.reverse hdata
      simpa using this
    have : Nat.digits 10 m = [0] := by
      refine map_digitChar_inj _ [0] (fun x hx => Nat.digits_lt_base (by norm_num) hx)
        (by simp) ?_
      simpa [Nat.digitChar] using hd
    have : m = 0 := by
      have h0 := Nat.ofDigits_digits 10 m
      rw [this] at h0
      simpa [Nat.ofDigits] using h0.symm
    exact hm this
  · -- both nonzero
    rw [natStrAux_eq_digits m m le_rfl, natStrAux_eq_digits n n le_rfl] at h
    have hdata := congrArg String.data h
    simp only at hdata
    have hrev : ((Nat.digits 10 m).map Nat.digitChar).reverse
        = ((Nat.digits 10 n).map Nat.digitChar).reverse := hdata
    have hmap : (Nat.digits 10 m).map Nat.digitChar
        = (Nat.digits 10 n).map Nat.digitChar := by
      have := congrArg List.reverse hrev
      simpa using this
    have hdig : Nat.digits 10 m = Nat.digits 10 n :=
      map_digitChar_inj _ _ (fun x hx => Nat.digits_lt_base (by norm_num) hx)
        (fun x hx => Nat.digits_lt_base (by norm_num) hx) hmap
    exact Nat.digits.injective 10 hdig

theorem natStr_ne_empty (n : Nat) : (natStr n).data ≠ [] := by
  unfold natStr
  by_cases hn : n = 0
  · subst hn; decide
  · simp only [hn, if_false]
    rw [natStrAux_eq_digits n n le_rfl]
    simp [Nat.digits_ne_nil_iff_ne_zero, hn]

theorem partPath_ne_save (save_path : String) (i : Nat) :
    partPath save_path i ≠ save_path := by
  intro h
  have hdata := congrArg String.data h
  have hlen := congrArg List.length hdata
  simp only [partPath] at hlen
  have h1 : (save_path ++ ".part" ++ natStr i).data
      = save_path.data ++ (".part".data ++ (natStr i).data) := by
    simp [String.data_append]
  rw [h1] at hlen
  simp only [List.length_append] at hlen
  have h2 : (natStr i).data ≠ [] := natStr_ne_empty i
  have h3 : 0 < (natStr i).data.length := List.length_pos.mpr h2
  have h4 : (".part".data).length = 5 := rfl
  omega

theorem partPath_inj (save_path : String) {i j : Nat}
    (h : partPath save_path i = partPath save_path j) : i = j := by
  apply natStr_injective
  have hdata := congrArg String.data h
  simp only [partPath, String.data_append, List.append_assoc] at hdata
  have h3 := List.append_cancel_left hdata
  have h2 : (natStr i).data = (natStr j).data := by simpa using h3
  exact String.ext h2

/-- Progress State (`ProgressTracker.__init__`, lines 145-150): total size
fixed at creation, downloaded byte counter starting at 0.  The mutex and the
wall-clock start time are concurrency/timing artefacts with no bearing on the
counter's values and are not modelled. -/
structure ProgressTracker where
  total_bytes : Nat
  downloaded_bytes : Nat

/-- Model of `ProgressTracker.update` (lines 152-154):
`self.downloaded_bytes += bytes_count`. -/
def ProgressTracker.update (t : ProgressTracker) (bytes_count : Nat) : ProgressTracker :=
  { t with downloaded_bytes := t.downloaded_bytes + bytes_count }

/-- Progress snapshot (`DownloadProgress`, lines 125-131); the float
percentage of `get_progress` is modelled over `ℚ`; the wall-clock speed field
is timing-dependent and omitted. -/
structure DownloadProgress where
  downloaded_bytes : Nat
  total_bytes : Nat
  percentage : ℚ

/-- Model of `ProgressTracker.get_progress` (lines 156-166):
percentage is `downloaded / total * 100` when `total > 0`, else `0`. -/
def ProgressTracker.get_progress (t : ProgressTracker) : DownloadProgress :=
  { downloaded_bytes := t.downloaded_bytes
    total_bytes := t.total_bytes
    percentage := if 0 < t.total_bytes
      then (t.downloaded_bytes : ℚ) / (t.total_bytes : ℚ) * 100 else 0 }

/-- An HTTP response as the fetch code observes it: a status code and the
chunk sequence that `iter_content` yields. -/
structure Response where
  status_code : Nat
  chunks : List (List Nat)

/-- Environment of one worker invocation: the value of the shared
cancellation flag at each checkpoint the code reads it, and the network's
answer to the worker's request.  `c0` is the flag at the worker-entry check
(lines 410, 541), `c1` at the check opening `_make_interruptible_request`
(line 645), `c2` at the post-request check (line 661); `sched k` is the flag
at the `k`-th chunk-loop check (lines 425, 565).  `net = none` models a
transport failure (the `except` path of `requests.get`). -/
structure WorkerEnv where
  c0 : Bool
  c1 : Bool
  c2 : Bool
  net : Option Response
  sched : Nat → Bool

/-- Model of `Downloader._make_interruptible_request` (lines 635-674):
check the token before the request, issue the request (its outcome supplied
by `net`), check the token again, then `raise_for_status` (which raises for
4xx/5xx, caught below as a `none` result). -/
def make_interruptible_request (c1 c2 : Bool) (net : Option Response) :
    Option Response :=
  if c1 then none
  else
    match net with
    | none => none
    | some response =>
        if c2 then none
        else if 400 ≤ response.status_code ∧ response.status_code < 600 then none
        else some response

/-- The chunk-streaming loop shared verbatim by `_download_singlethread`
(lines 424-430) and `_download_part` (lines 564-570): for each chunk, first
check the cancellation flag (returning failure and leaving the bytes written
so far on disk), then skip empty chunks, else append the chunk to the open
file and add its length to the tracker.  `k` indexes the loop iteration into
the cancellation schedule. -/
def partLoop (path : String) (sched : Nat → Bool) :
    FS → ProgressTracker → Nat → List (List Nat) → FS × ProgressTracker × Bool
  | fs, tr, _, [] => (fs, tr, true)
  | fs, tr, k, chunk :: rest =>
      if sched k then (fs, tr, false)
      else if chunk.isEmpty then partLoop path sched fs tr (k + 1) rest
      else partLoop path sched (fsAppend fs path chunk) (tr.update chunk.length)
        (k + 1) rest

/-- Model of `Downloader._download_part` (lines 527-579): check cancellation,
issue the ranged request (`Range: bytes={start}-{end}`, whose server answer
is `env.net`), fail unless the status is exactly 206, then open
`{save_path}.part{part_num}` for writing and stream the body.  Any raised
exception is caught and reported as `false`. -/
def download_part (env : WorkerEnv) (start «end» : Int) (save_path : String)
    (part_num : Nat) (fs : FS) (tr : ProgressTracker) :
    FS × ProgressTracker × Bool :=
  if env.c0 then (fs, tr, false)
  else
    match make_interruptible_request env.c1 env.c2 env.net with
    | none => (fs, tr, false)
    | some response =>
        if response.status_code ≠ 206 then (fs, tr, false)
        else
          let part_path := partPath save_path part_num
          partLoop part_path env.sched (fsWrite fs part_path []) tr 0
            response.chunks

/-- Model of `Downloader._download_singlethread` (lines 399-439): like a
ranged worker but without a `Range` header or 206 check, writing straight to
`save_path`. -/
def download_singlethread (env : WorkerEnv) (save_path : String) (fs : FS)
    (tr : ProgressTracker) : FS × ProgressTracker × Bool :=
  if env.c0 then (fs, tr, false)
  else
    match make_interruptible_request env.c1 env.c2 env.net with
    | none => (fs, tr, false)
    | some response =>
        partLoop save_path env.sched (fsWrite fs save_path []) tr 0
          response.chunks

/-- Start of range `i` in the plan of `_download_multithread` (line 457):
`start = i * part_size` with `part_size = file_size // num_threads`. -/
def rangeStart (file_size num_threads i : Nat) : Int :=
  (i : Int) * ((file_size / num_threads : Nat) : Int)

/-- End (inclusive) of range `i` (lines 458-462): `start + part_size - 1`
for every range but the last, and `file_size - 1` for the last.  Over Python
ints this can be `-1` (empty range) when `part_size = 0`, so the model uses
`Int`. -/
def rangeEnd (file_size num_threads i : Nat) : Int :=
  if i < num_threads - 1
    then rangeStart file_size num_threads i + ((file_size / num_threads : Nat) : Int) - 1
    else (file_size : Int) - 1

/-- Range plan of `_download_multithread` (lines 451-463): the list of
`(start, end, i)` triples for `i = 0 .. num_threads - 1`. -/
def buildRanges (file_size num_threads : Nat) : List (Int × Int × Nat) :=
  (List.range num_threads).map fun i =>
    (rangeStart file_size num_threads i, rangeEnd file_size num_threads i, i)

/-- Membership of byte offset `x` in range `i` of the plan. -/
def inRange (file_size num_threads i : Nat) (x : Int) : Prop :=
  rangeStart file_size num_threads i ≤ x ∧ x ≤ rangeEnd file_size num_threads i

/-- Loop body of `Downloader._merge_parts` (lines 584-593): for each part
index in order, if `{save_path}.part{i}` exists, append its full contents to
the open destination file and delete it; otherwise log a warning and return
`False`.  The destination handle stays open for the whole loop, so appends
accumulate. -/
def mergeGo (save_path : String) : FS → List Nat → FS × Bool
  | fs, [] => (fs, true)
  | fs, i :: rest =>
      let part_path := partPath save_path i
      match fs part_path with
      | some content =>
          mergeGo save_path (fsRemove (fsAppend fs save_path content) part_path) rest
      | none => (fs, false)

/-- Model of `Downloader._merge_parts` (lines 581-599): open `save_path` with
mode `"wb"` (truncating it to empty), then run the merge loop over part
indices `0 .. num_parts - 1`. -/
def merge_parts (fs : FS) (save_path : String) (num_parts : Nat) : FS × Bool :=
  mergeGo save_path (fsWrite fs save_path []) (List.range num_parts)

/-- Part-removal loop of `Downloader._cleanup_partial_files` (lines 611-615):
for each index, remove `{save_path}.part{i}` if it exists. -/
def cleanupRemoveParts (save_path : String) : FS → List Nat → FS
  | fs, [] => fs
  | fs, i :: rest =>
      let part_path := partPath save_path i
      cleanupRemoveParts save_path
        (if (fs part_path).isSome then fsRemove fs part_path else fs) rest

/-- Model of `Downloader._cleanup_partial_files` (lines 601-624) in the
`num_parts is not None` branch, the one every call in `download` uses
(lines 350, 360, 364 pass `self.config.num_threads`): remove the file at
`save_path` if present, then remove the enumerated part files. -/
def cleanup_partial_files (fs : FS) (save_path : String) (num_parts : Nat) : FS :=
  cleanupRemoveParts save_path
    (if (fs save_path).isSome then fsRemove fs save_path else fs)
    (List.range num_parts)

/-- Worker execution of `_download_multithread` (lines 466-509): one
`_download_part` task per planned range.  The submitted tasks all run to
completion (an ordinary task failure breaks the result-collection loop but
does not cancel already-submitted tasks, and the executor joins them on
exit), and the collected outcome is the conjunction of the task results;
concurrent tracker increments commute, so the tasks are sequenced here in
index order.  The cancellation-polling wait loop itself is modelled
separately by `waitAllGo`. -/
def runWorkers (envs : Nat → WorkerEnv) (save_path : String) :
    FS → ProgressTracker → List (Int × Int × Nat) → FS × ProgressTracker × Bool
  | fs, tr, [] => (fs, tr, true)
  | fs, tr, (start, «end», part_num) :: rest =>
      match download_part (envs part_num) start «end» save_path part_num fs tr with
      | (fs', tr', ok) =>
          match runWorkers envs save_path fs' tr' rest with
          | (fs'', tr'', ok') => (fs'', tr'', ok && ok')

/-- Model of `Downloader._download_multithread` (lines 441-525): build the
range plan from `progress_tracker.total_bytes` (line 452), run one ranged
worker per range, and merge the parts only if every worker succeeded. -/
def download_multithread (envs : Nat → WorkerEnv) (num_threads : Nat)
    (save_path : String) (fs : FS) (tr : ProgressTracker) :
    FS × ProgressTracker × Bool :=
  let ranges := buildRanges tr.total_bytes num_threads
  match runWorkers envs save_path fs tr ranges with
  | (fs', tr', ok) =>
      if ok then
        match merge_parts fs' save_path num_threads with
        | (fs'', mok) => (fs'', tr', mok)
      else (fs', tr', false)

/-- Model of `Downloader._get_file_size` (lines 371-384).  `head` and `get`
are the outcomes of the HEAD probe and the streaming-GET fallback: `none`
models a raised request exception, `some none` a response without a usable
`Content-Length` header (absent or empty, hence falsy), `some (some n)` a
response whose `Content-Length` parses to `n`.  Note that the header string
`"0"` is truthy in Python, so a zero-length resource yields `some (some 0)`
and the probe returns `0` from the first successful response. -/
def get_file_size (head get : Option (Option Nat)) : Nat :=
  match head with
  | some (some n) => n
  | _ =>
      match get with
      | some (some n) => n
      | _ => 0

/-- Outcome of one `Downloader.download` call: the returned boolean, the
resulting disk state, the final tracker, plus two observations used by the
claims: which path was chosen (line 313) and how many fetch workers were
spawned on it (one future per planned range on the parallel path, lines
467-480; a single direct call otherwise, line 335). -/
structure DownloadResult where
  success : Bool
  fs : FS
  tracker : ProgressTracker
  usedMultithread : Bool
  workersSpawned : Nat

/-- Model of `Downloader.download` (lines 273-369): probe the size (line
297), substitute `1` when it is not positive (lines 298-300), create the
tracker (line 307), choose the path by `supports_range and num_threads > 1`
(lines 312-313), run it (line 335), and on failure clean up the partial
files (lines 348-350).  `supports_range` is the Capability Probe's verdict
(`_check_range_support`); `envs` are the ranged workers' environments,
`senv` the single-stream worker's. -/
def download (num_threads : Nat) (headCL getCL : Option (Option Nat))
    (supports_range : Bool) (envs : Nat → WorkerEnv) (senv : WorkerEnv)
    (save_path : String) (fs0 : FS) : DownloadResult :=
  let file_size0 := get_file_size headCL getCL
  let file_size := if file_size0 ≤ 0 then 1 else file_size0
  let tr0 : ProgressTracker := ⟨file_size, 0⟩
  let use_multithread := supports_range && decide (1 < num_threads)
  let res := if use_multithread
      then download_multithread envs num_threads save_path fs0 tr0
      else download_singlethread senv save_path fs0 tr0
  { success := res.2.2
    fs := if res.2.2 then res.1
      else cleanup_partial_files res.1 save_path num_threads
    tracker := res.2.1
    usedMultithread := use_multithread
    workersSpawned := if use_multithread
      then (buildRanges tr0.total_bytes num_threads).length else 1 }

/-- Completion state of one submitted worker future, as the wait loop of
`_download_multithread` observes it: the poll tick at which `future.done()`
first holds, and the boolean the task returns. -/
structure FutureState where
  doneAt : Nat
  result : Bool

/-- One result of the polling loop of lines 483-509.  `success t` means every
future was collected with result `True` by tick `t`; `failed t` means a
result was `False` (break, line 500); `cancelled t reqs` means the token was
observed set at tick `t`, `f.cancel()` was issued for the futures `reqs`,
and `False` was returned at once (lines 489-493); `fuelOut` means the poll
budget of the model ran out. -/
inductive LoopRes where
  | success : Nat → LoopRes
  | failed : Nat → LoopRes
  | cancelled : Nat → List Nat → LoopRes
  | fuelOut : LoopRes
deriving DecidableEq

/-- Intermediate result of waiting on a single future. -/
inductive WaitRes where
  | done : Nat → WaitRes
  | cancelledAt : Nat → WaitRes
  | fuelOut : WaitRes
deriving DecidableEq

/-- Model of the inner `while not future.done()` wait (lines 488-494): at
each tick first test `future.done()`, then the cancellation token (`c t`),
then sleep one tick.  `fuel` bounds the number of polls in the model. -/
def waitFuture (c : Nat → Bool) (doneAt : Nat) : Nat → Nat → WaitRes
  | _, 0 => .fuelOut
  | t, fuel + 1 =>
      if doneAt ≤ t then .done t
      else if c t then .cancelledAt t
      else waitFuture c doneAt (t + 1) fuel

/-- Model of the result-collection loop of lines 483-509 over the remaining
futures, `futures` being the full submitted list: wait for the head future;
if cancellation is observed, request cancellation of every submitted future
(`for f in futures: f.cancel()`, lines 491-492) and return immediately;
if the future completed with `False`, stop with failure; otherwise continue
with the rest from the tick at which the future was seen done. -/
def waitAllGo (c : Nat → Bool) (futures : List FutureState) :
    List FutureState → Nat → Nat → LoopRes
  | [], t, _ => .success t
  | f :: rest, t, fuel =>
      match waitFuture c f.doneAt t fuel with
      | .fuelOut => .fuelOut
      | .cancelledAt t' => .cancelled t' (List.range futures.length)
      | .done t' =>
          if f.result then waitAllGo c futures rest t' fuel else .failed t'

/-- The wait loop of `_download_multithread` started on the full future list
at tick 0. -/
def waitAll (c : Nat → Bool) (futures : List FutureState) (fuel : Nat) : LoopRes :=
  waitAllGo c futures futures 0 fuel

/-- How the orchestrator turns a wait-loop outcome into its boolean: only a
fully successful collection proceeds (to the merge); a failure, an observed
cancellation, or an exhausted wait returns `False` (lines 493, 499, 512). -/
def LoopRes.toSuccess : LoopRes → Bool
  | .success _ => true
  | _ => false

theorem mul_div_le_total (S N : Nat) : N * (S / N) ≤ S := by
  rw [Nat.mul_comm]
  exact Nat.div_mul_le_self S N

theorem buildRanges_length (S N : Nat) : (buildRanges S N).length = N := by
  simp [buildRanges]

theorem buildRanges_getElem? (S N i : Nat) (hiN : i < N) :
    (buildRanges S N)[i]? = some (rangeStart S N i, rangeEnd S N i, i) := by
  simp [buildRanges, List.getElem?_map, List.getElem?_range, hiN]

theorem range_ordered (S N : Nat) {i j : Nat} {x y : Int} (hij : i < j)
    (hj : j < N) (hx : inRange S N i x) (hy : inRange S N j y) : x < y := by
  obtain ⟨hx1, hx2⟩ := hx
  obtain ⟨hy1, hy2⟩ := hy
  have hi : i < N - 1 := by omega
  rw [rangeEnd, if_pos hi] at hx2
  have hnat : (i + 1) * (S / N) ≤ j * (S / N) :=
    Nat.mul_le_mul_right _ (by omega)
  have hcast : ((i : Int) + 1) * ((S / N : Nat) : Int)
      ≤ (j : Int) * ((S / N : Nat) : Int) := by exact_mod_cast hnat
  have hexp : ((i : Int) + 1) * ((S / N : Nat) : Int)
      = (i : Int) * ((S / N : Nat) : Int) + ((S / N : Nat) : Int) := by ring
  unfold rangeStart at hx2 hy1
  linarith

theorem range_subset (S N : Nat) {i : Nat} {x : Int} (hiN : i < N)
    (hx : inRange S N i x) : 0 ≤ x ∧ x ≤ (S : Int) - 1 := by
  obtain ⟨h1, h2⟩ := hx
  have hstart : (0 : Int) ≤ rangeStart S N i := by
    unfold rangeStart; positivity
  refine ⟨le_trans hstart h1, ?_⟩
  by_cases hi : i < N - 1
  · rw [rangeEnd, if_pos hi] at h2
    have hnat : (i + 1) * (S / N) ≤ N * (S / N) :=
      Nat.mul_le_mul_right _ (by omega)
    have hle : (i + 1) * (S / N) ≤ S := le_trans hnat (mul_div_le_total S N)
    have hcast : ((i : Int) + 1) * ((S / N : Nat) : Int) ≤ (S : Int) := by
      exact_mod_cast hle
    have hexp : ((i : Int) + 1) * ((S / N : Nat) : Int)
        = (i : Int) * ((S / N : Nat) : Int) + ((S / N : Nat) : Int) := by ring
    unfold rangeStart at h2
    linarith
  · rw [rangeEnd, if_neg hi] at h2
    exact h2

theorem range_superset (S N : Nat) (hN : 1 ≤ N) {x : Int} (hx0 : 0 ≤ x)
    (hx1 : x ≤ (S : Int) - 1) : ∃ i, i < N ∧ inRange S N i x := by
  obtain ⟨n, rfl⟩ := Int.eq_ofNat_of_zero_le hx0
  by_cases hcase : (N - 1) * (S / N) ≤ n
  · refine ⟨N - 1, by omega, ?_, ?_⟩
    · unfold rangeStart
      exact_mod_cast hcase
    · rw [rangeEnd, if_neg (by omega)]
      exact hx1
  · push_neg at hcase
    have hp0 : 0 < S / N := by
      rcases Nat.eq_zero_or_pos (S / N) with h | h
      · rw [h, Nat.mul_zero] at hcase; omega
      · exact h
    have hlt : n / (S / N) < N - 1 := (Nat.div_lt_iff_lt_mul hp0).mpr hcase
    refine ⟨n / (S / N), by omega, ?_, ?_⟩
    · unfold rangeStart
      exact_mod_cast Nat.div_mul_le_self n (S / N)
    · rw [rangeEnd, if_pos hlt]
      have h2 : n < (n / (S / N) + 1) * (S / N) :=
        (Nat.div_lt_iff_lt_mul hp0).mp (Nat.lt_succ_self _)
      have h3 : (n / (S / N) + 1) * (S / N) = n / (S / N) * (S / N) + S / N := by
        ring
      rw [h3] at h2
      unfold rangeStart
      have h4 : (n : Int) < (↑(n / (S / N)) : Int) * ↑(S / N) + ↑(S / N) := by
        exact_mod_cast h2
      linarith

/-- C1: for every total size `S ≥ 1` and worker count `N ≥ 1`, the range
plan of `_download_multithread` has exactly `N` ranges; with
`part = S div N`, range `i < N - 1` is `[i*part, (i+1)*part - 1]` and the
last range is `[(N-1)*part, S-1]`; the ranges are pairwise disjoint, ordered
by index ascending, and their union is exactly `[0, S-1]`. -/
theorem claim_C1 (S N : Nat) (hS : 1 ≤ S) (hN : 1 ≤ N) :
    (buildRanges S N).length = N
    ∧ (∀ i, i < N → (buildRanges S N)[i]? =
        some (rangeStart S N i, rangeEnd S N i, i))
    ∧ (∀ i, i < N - 1 → rangeStart S N i = (i : Int) * ((S / N : Nat) : Int)
        ∧ rangeEnd S N i = ((i : Int) + 1) * ((S / N : Nat) : Int) - 1)
    ∧ rangeStart S N (N - 1) = ((N - 1 : Nat) : Int) * ((S / N : Nat) : Int)
    ∧ rangeEnd S N (N - 1) = (S : Int) - 1
    ∧ (∀ i j x, i < j → j < N → inRange S N i x → inRange S N j x → False)
    ∧ (∀ i j x y, i < j → j < N → inRange S N i x → inRange S N j y → x < y)
    ∧ (∀ x : Int, (∃ i, i < N ∧ inRange S N i x) ↔ 0 ≤ x ∧ x ≤ (S : Int) - 1) := by
  refine ⟨buildRanges_length S N, buildRanges_getElem? S N, ?_, rfl, ?_, ?_, ?_, ?_⟩
  · intro i hi
    refine ⟨rfl, ?_⟩
    rw [rangeEnd, if_pos hi, rangeStart]
    ring
  · rw [rangeEnd, if_neg (by omega)]
  · intro i j x hij hj hxi hxj
    exact absurd (range_ordered S N hij hj hxi hxj) (lt_irrefl x)
  · intro i j x y hij hj hxi hyj
    exact range_ordered S N hij hj hxi hyj
  · intro x
    constructor
    · rintro ⟨i, hiN, hx⟩
      exact range_subset S N hiN hx
    · rintro ⟨hx0, hx1⟩
      exact range_superset S N hN hx0 hx1

theorem claim_C1_witness :
    1 ≤ 10 ∧ 1 ≤ 4 ∧ (buildRanges 10 4).length = 4 :=
  ⟨by decide, by decide, (claim_C1 10 4 (by decide) (by decide)).1⟩

theorem fsWrite_self (fs : FS) (p : String) (v : List Nat) :
    fsWrite fs p v p = some v := by simp [fsWrite]

theorem fsWrite_other (fs : FS) (p : String) (v : List Nat) {q : String}
    (h : q ≠ p) : fsWrite fs p v q = fs q := by simp [fsWrite, h]

theorem fsAppend_self (fs : FS) (p : String) (v : List Nat) :
    fsAppend fs p v p = some (((fs p).getD []) ++ v) := by simp [fsAppend]

theorem fsAppend_other (fs : FS) (p : String) (v : List Nat) {q : String}
    (h : q ≠ p) : fsAppend fs p v q = fs q := by simp [fsAppend, h]

theorem fsRemove_self (fs : FS) (p : String) : fsRemove fs p p = none := by
  simp [fsRemove]

theorem fsRemove_other (fs : FS) (p : String) {q : String} (h : q ≠ p) :
    fsRemove fs p q = fs q := by simp [fsRemove, h]

/-- Bytes of `src` covered by the planned range `(start, end, i)`: the
`end - start + 1` bytes beginning at offset `start`.  A correct ranged
server responds to `Range: bytes={start}-{end}` with exactly these bytes. -/
def sliceOfRange (src : List Nat) (r : Int × Int × Nat) : List Nat :=
  (src.drop r.1.toNat).take (r.2.1 - r.1 + 1).toNat

theorem slice_eval_nonlast (src : List Nat) (M i : Nat) (hi : i < M) :
    sliceOfRange src (rangeStart src.length (M + 1) i,
        rangeEnd src.length (M + 1) i, i)
      = (src.drop (i * (src.length / (M + 1)))).take (src.length / (M + 1)) := by
  have hiM : i < (M + 1) - 1 := by omega
  unfold sliceOfRange rangeEnd rangeStart
  simp only [hiM, if_pos]
  have h1 : ((i : Int) * ((src.length / (M + 1) : Nat) : Int)).toNat
      = i * (src.length / (M + 1)) := by
    rw [show (i : Int) * ((src.length / (M + 1) : Nat) : Int)
        = ((i * (src.length / (M + 1)) : Nat) : Int) by push_cast [Nat.cast_mul]; ring]
    exact Int.toNat_natCast _
  have h2 : ((i : Int) * ((src.length / (M + 1) : Nat) : Int)
        + ((src.length / (M + 1) : Nat) : Int) - 1
        - (i : Int) * ((src.length / (M + 1) : Nat) : Int) + 1)
      = ((src.length / (M + 1) : Nat) : Int) := by ring
  rw [h1, h2, Int.toNat_natCast]

theorem slice_eval_last (src : List Nat) (M : Nat) :
    sliceOfRange src (rangeStart src.length (M + 1) M,
        rangeEnd src.length (M + 1) M, M)
      = src.drop (M * (src.length / (M + 1))) := by
  have hM : ¬ M < (M + 1) - 1 := by omega
  unfold sliceOfRange rangeEnd rangeStart
  simp only [hM, if_neg, if_false]
  have h1 : ((M : Int) * ((src.length / (M + 1) : Nat) : Int)).toNat
      = M * (src.length / (M + 1)) := by
    rw [show (M : Int) * ((src.length / (M + 1) : Nat) : Int)
        = ((M * (src.length / (M + 1)) : Nat) : Int) by push_cast [Nat.cast_mul]; ring]
    exact Int.toNat_natCast _
  have h2 : ((src.length : Int) - 1 - (M : Int) * ((src.length / (M + 1) : Nat) : Int) + 1)
      = ((src.length : Int) - ((M * (src.length / (M + 1)) : Nat) : Int)) := by
    push_cast [Nat.cast_mul]; ring
  rw [h1, h2, Int.toNat_sub]
  have hlen : (src.drop (M * (src.length / (M + 1)))).length
      = src.length - M * (src.length / (M + 1)) := by
    simp [List.length_drop]
  exact List.take_of_length_le (le_of_eq hlen)

theorem join_slices_aux (src : List Nat) (N : Nat) :
    ∀ k, (((List.range k).map (fun i =>
        (src.drop (i * (src.length / N))).take (src.length / N))).flatten)
      = src.take (k * (src.length / N)) := by
  intro k
  induction k with
  | zero => simp
  | succ k ih =>
      rw [List.range_succ, List.map_append, List.flatten_append, ih]
      simp only [List.map_cons, List.map_nil, List.flatten_cons, List.flatten_nil,
        List.append_nil]
      rw [show (k + 1) * (src.length / N) = k * (src.length / N) + src.length / N
        by ring]
      rw [List.take_add]

theorem join_slices (src : List Nat) (N : Nat) (hN : 1 ≤ N) :
    ((buildRanges src.length N).map (sliceOfRange src)).flatten = src := by
  obtain ⟨M, rfl⟩ : ∃ M, N = M + 1 := ⟨N - 1, by omega⟩
  rw [buildRanges, List.map_map, List.range_succ, List.map_append,
    List.flatten_append]
  have hhead : ((List.range M).map ((sliceOfRange src) ∘ fun i =>
      (rangeStart src.length (M + 1) i, rangeEnd src.length (M + 1) i, i))).flatten
      = src.take (M * (src.length / (M + 1))) := by
    rw [← join_slices_aux src (M + 1) M]
    congr 1
    apply List.map_congr_left
    intro i hi
    have hiM : i < M := List.mem_range.mp hi
    simp only [Function.comp_apply]
    exact slice_eval_nonlast src M i hiM
  rw [hhead]
  simp only [List.map_cons, List.map_nil, List.flatten_cons, List.flatten_nil,
    List.append_nil, Function.comp_apply]
  rw [slice_eval_last src M, List.take_append_drop]

theorem mergeGo_spec (save_path : String) (contents : Nat → List Nat) :
    ∀ (l : List Nat) (fs : FS) (cur : List Nat), l.Nodup →
      fs save_path = some cur →
      (∀ i ∈ l, fs (partPath save_path i) = some (contents i)) →
      (mergeGo save_path fs l).2 = true
      ∧ (mergeGo save_path fs l).1 save_path
          = some (cur ++ (l.map contents).flatten)
      ∧ (∀ i ∈ l, (mergeGo save_path fs l).1 (partPath save_path i) = none)
      ∧ (∀ p, p ≠ save_path → (∀ i ∈ l, p ≠ partPath save_path i) →
          (mergeGo save_path fs l).1 p = fs p) := by
  intro l
  induction l with
  | nil =>
      intro fs cur _ hcur _
      simp [mergeGo, hcur]
  | cons i rest ih =>
      intro fs cur hnd hcur hparts
      have hpi : fs (partPath save_path i) = some (contents i) :=
        hparts i (by simp)
      have hstep : mergeGo save_path fs (i :: rest)
          = mergeGo save_path
              (fsRemove (fsAppend fs save_path (contents i))
                (partPath save_path i)) rest := by
        simp [mergeGo, hpi]
      set fs' : FS := fsRemove (fsAppend fs save_path (contents i))
        (partPath save_path i) with hfs'
      have hinrest : ∀ j ∈ rest, j ≠ i := by
        intro j hj
        intro hji
        subst hji
        exact (List.nodup_cons.mp hnd).1 hj
      have hcur' : fs' save_path = some (cur ++ contents i) := by
        rw [hfs', fsRemove_other _ _ (Ne.symm (partPath_ne_save save_path i)),
          fsAppend_self, hcur]
        simp
      have hparts' : ∀ j ∈ rest, fs' (partPath save_path j) = some (contents j) := by
        intro j hj
        have hji : partPath save_path j ≠ partPath save_path i := by
          intro h
          exact hinrest j hj (partPath_inj save_path h)
        rw [hfs', fsRemove_other _ _ hji,
          fsAppend_other _ _ _ (partPath_ne_save save_path j)]
        exact hparts j (by simp [hj])
      obtain ⟨hok, hdest, hgone, hframe⟩ :=
        ih fs' (cur ++ contents i) (List.nodup_cons.mp hnd).2 hcur' hparts'
      refine ⟨by rw [hstep]; exact hok, ?_, ?_, ?_⟩
      · rw [hstep, hdest]
        simp
      · intro j hj
        rcases List.mem_cons.mp hj with rfl | hjrest
        · rw [hstep]
          rw [hframe (partPath save_path j) (partPath_ne_save save_path j) ?_]
          · rw [hfs', fsRemove_self]
          · intro j' hj'
            intro h
            exact hinrest j' hj' (partPath_inj save_path h).symm
        · rw [hstep]
          exact hgone j hjrest
      · intro p hp hpl
        rw [hstep, hframe p hp (fun j hj => hpl j (by simp [hj]))]
        rw [hfs', fsRemove_other _ _ (hpl i (by simp)), fsAppend_other _ _ _ hp]

/-- C2: if every part file `save_path.part0 .. save_path.part(N-1)` exists,
`_merge_parts` writes the destination as the concatenation of the parts'
contents in ascending index order, deletes each part file, and returns
success; and when the part contents are the slices of a byte source cut by
the range plan (as a conforming 206 server produces), that concatenation is
byte-identical to the source. -/
theorem claim_C2 (fs : FS) (save_path : String) (N : Nat)
    (contents : Nat → List Nat) (hN : 1 ≤ N)
    (hparts : ∀ i, i < N → fs (partPath save_path i) = some (contents i)) :
    (merge_parts fs save_path N).2 = true
    ∧ (merge_parts fs save_path N).1 save_path
        = some (((List.range N).map contents).flatten)
    ∧ (∀ i, i < N → (merge_parts fs save_path N).1 (partPath save_path i) = none)
    ∧ ∀ src : List Nat,
        (∀ i, i < N → contents i = sliceOfRange src
          (rangeStart src.length N i, rangeEnd src.length N i, i)) →
        ((List.range N).map contents).flatten = src := by
  have hw : (fsWrite fs save_path []) save_path = some [] := fsWrite_self _ _ _
  have hwp : ∀ i ∈ List.range N,
      (fsWrite fs save_path []) (partPath save_path i) = some (contents i) := by
    intro i hi
    rw [fsWrite_other _ _ _ (partPath_ne_save save_path i)]
    exact hparts i (List.mem_range.mp hi)
  obtain ⟨hok, hdest, hgone, _⟩ :=
    mergeGo_spec save_path contents (List.range N) (fsWrite fs save_path [])
      [] (List.nodup_range N) hw hwp
  refine ⟨hok, by simpa using hdest, ?_, ?_⟩
  · intro i hi
    exact hgone i (List.mem_range.mpr hi)
  · intro src hsrc
    have hmap : (List.range N).map contents
        = (buildRanges src.length N).map (sliceOfRange src) := by
      rw [buildRanges, List.map_map]
      apply List.map_congr_left
      intro i hi
      exact hsrc i (List.mem_range.mp hi)
    rw [hmap, join_slices src N hN]

theorem claim_C2_witness :
    1 ≤ 2
    ∧ (∀ i, i < 2 →
        (fun q => if q = partPath "f" 0 then some [10, 20]
          else if q = partPath "f" 1 then some [30] else none : FS)
          (partPath "f" i) = some ((fun i => if i = 0 then [10, 20] else [30]) i))
    ∧ (merge_parts
        (fun q => if q = partPath "f" 0 then some [10, 20]
          else if q = partPath "f" 1 then some [30] else none) "f" 2).2 = true :=
  ⟨by decide, by decide,
    (claim_C2 _ "f" 2 (fun i => if i = 0 then [10, 20] else [30])
      (by decide) (by decide)).1⟩

theorem mergeGo_fail (save_path : String) :
    ∀ (l : List Nat) (fs : FS), l.Nodup →
      (∃ i ∈ l, fs (partPath save_path i) = none) →
      (mergeGo save_path fs l).2 = false := by
  intro l
  induction l with
  | nil =>
      rintro fs _ ⟨i, hi, _⟩
      simp at hi
  | cons i rest ih =>
      rintro fs hnd ⟨j, hj, hjnone⟩
      cases hcase : fs (partPath save_path i) with
      | none => simp [mergeGo, hcase]
      | some c =>
          have hji : j ≠ i := by
            rintro rfl
            rw [hjnone] at hcase
            cases hcase
          have hjrest : j ∈ rest := by
            rcases List.mem_cons.mp hj with rfl | h
            · exact absurd rfl hji
            · exact h
          have hstep : mergeGo save_path fs (i :: rest)
              = mergeGo save_path
                  (fsRemove (fsAppend fs save_path c) (partPath save_path i))
                  rest := by
            simp [mergeGo, hcase]
          rw [hstep]
          apply ih _ (List.nodup_cons.mp hnd).2
          refine ⟨j, hjrest, ?_⟩
          have hpp : partPath save_path j ≠ partPath save_path i := by
            intro h
            exact hji (partPath_inj save_path h)
          rw [fsRemove_other _ _ hpp,
            fsAppend_other _ _ _ (partPath_ne_save save_path j)]
          exact hjnone

/-- C3: if any expected part file `save_path.part(i)`, `i < N`, is missing
when `_merge_parts` runs, the merge returns `False` (lines 591-593), the
value `_download_multithread` passes straight through as the download's
failure (line 521); no missing part is silently skipped. -/
theorem claim_C3 (fs : FS) (save_path : String) (N : Nat)
    (hmiss : ∃ i, i < N ∧ fs (partPath save_path i) = none) :
    (merge_parts fs save_path N).2 = false := by
  obtain ⟨i, hiN, hnone⟩ := hmiss
  apply mergeGo_fail save_path (List.range N) _ (List.nodup_range N)
  refine ⟨i, List.mem_range.mpr hiN, ?_⟩
  rw [fsWrite_other _ _ _ (partPath_ne_save save_path i)]
  exact hnone

theorem claim_C3_witness :
    (0 < 2 ∧ (fun _ => none : FS) (partPath "f" 0) = none)
    ∧ (merge_parts (fun _ => none) "f" 2).2 = false :=
  ⟨⟨by decide, by decide⟩, claim_C3 (fun _ => none) "f" 2 ⟨0, by decide, by decide⟩⟩

/-- C4: a ranged worker whose request yields any status other than 206 —
in particular a 200 with the whole body — returns failure and writes
nothing: the part file is not even created and the tracker is untouched
(lines 555-558 raise before the file is opened). -/
theorem claim_C4 (env : WorkerEnv) (start «end» : Int) (save_path : String)
    (part_num : Nat) (fs : FS) (tr : ProgressTracker) (response : Response)
    (hnet : env.net = some response) (h206 : response.status_code ≠ 206) :
    download_part env start «end» save_path part_num fs tr = (fs, tr, false) := by
  by_cases h4 : 400 ≤ response.status_code ∧ response.status_code < 600 <;>
    cases hc0 : env.c0 <;> cases hc1 : env.c1 <;> cases hc2 : env.c2 <;>
      simp [download_part, make_interruptible_request, hnet, hc0, hc1, hc2,
        h4, h206]

theorem claim_C4_witness :
    ((⟨false, false, false, some ⟨200, [[5]]⟩, fun _ => false⟩ :
        WorkerEnv).net = some ⟨200, [[5]]⟩ ∧ (200 : Nat) ≠ 206)
    ∧ download_part ⟨false, false, false, some ⟨200, [[5]]⟩, fun _ => false⟩
        0 9 "f" 0 (fun _ => none) ⟨10, 0⟩ = ((fun _ => none), ⟨10, 0⟩, false) :=
  ⟨⟨rfl, by decide⟩,
    claim_C4 ⟨false, false, false, some ⟨200, [[5]]⟩, fun _ => false⟩
      0 9 "f" 0 (fun _ => none) ⟨10, 0⟩ ⟨200, [[5]]⟩ rfl (by decide)⟩

/-- C5: `download` takes the multi-stream path exactly when the range probe
succeeded and the configured worker count exceeds 1 (line 313); when range
support is not detected it spawns exactly one fetch worker regardless of the
configured count, and on the parallel path it spawns one worker per planned
range, i.e. `num_threads` of them. -/
theorem claim_C5 (num_threads : Nat) (headCL getCL : Option (Option Nat))
    (supports_range : Bool) (envs : Nat → WorkerEnv) (senv : WorkerEnv)
    (save_path : String) (fs0 : FS) :
    ((download num_threads headCL getCL supports_range envs senv save_path
        fs0).usedMultithread = true
      ↔ supports_range = true ∧ 1 < num_threads)
    ∧ (supports_range = false →
        (download num_threads headCL getCL supports_range envs senv save_path
          fs0).workersSpawned = 1)
    ∧ (supports_range = true → 1 < num_threads →
        (download num_threads headCL getCL supports_range envs senv save_path
          fs0).workersSpawned = num_threads) := by
  refine ⟨?_, ?_, ?_⟩
  · show (supports_range && decide (1 < num_threads)) = true ↔ _
    simp
  · intro hsr
    show (if (supports_range && decide (1 < num_threads)) then _ else 1) = 1
    simp [hsr]
  · intro hsr hnt
    show (if (supports_range && decide (1 < num_threads)) then
        (buildRanges _ num_threads).length else 1) = num_threads
    simp [hsr, hnt, buildRanges_length]

theorem claim_C5_witness :
    (false = false)
    ∧ (download 4 none none false (fun _ => ⟨true, true, true, none, fun _ => true⟩)
        ⟨true, true, true, none, fun _ => true⟩ "f" (fun _ => none)).workersSpawned
      = 1 :=
  ⟨rfl, (claim_C5 4 none none false
      (fun _ => ⟨true, true, true, none, fun _ => true⟩)
      ⟨true, true, true, none, fun _ => true⟩ "f" (fun _ => none)).2.1 rfl⟩

/-- Total number of body bytes the network delivers to a worker: the sum of
the chunk lengths of its response, `0` on transport failure. -/
def bodyLen (env : WorkerEnv) : Nat :=
  match env.net with
  | none => 0
  | some r => (r.chunks.map List.length).sum

/-- Number of bytes requested by range `i` of the plan (inclusive bounds). -/
def rangeSizeNat (file_size num_threads i : Nat) : Nat :=
  (rangeEnd file_size num_threads i - rangeStart file_size num_threads i + 1).toNat

theorem partLoop_tracker (path : String) (sched : Nat → Bool) :
    ∀ (chunks : List (List Nat)) (fs : FS) (tr : ProgressTracker) (k : Nat),
      (partLoop path sched fs tr k chunks).2.1.total_bytes = tr.total_bytes
      ∧ tr.downloaded_bytes ≤ (partLoop path sched fs tr k chunks).2.1.downloaded_bytes
      ∧ (partLoop path sched fs tr k chunks).2.1.downloaded_bytes
          ≤ tr.downloaded_bytes + (chunks.map List.length).sum := by
  intro chunks
  induction chunks with
  | nil => intro fs tr k; simp [partLoop]
  | cons chunk rest ih =>
      intro fs tr k
      by_cases hs : sched k
      · simp [partLoop, hs]
      · by_cases he : chunk.isEmpty
        · have hlen : chunk.length = 0 := by
            simpa [List.isEmpty_iff] using he
          have := ih fs tr (k + 1)
          simp only [partLoop, hs, he, if_false, if_true]
          refine ⟨this.1, this.2.1, ?_⟩
          calc (partLoop path sched fs tr (k + 1) rest).2.1.downloaded_bytes
              ≤ tr.downloaded_bytes + (rest.map List.length).sum := this.2.2
            _ ≤ tr.downloaded_bytes + ((chunk :: rest).map List.length).sum := by
                simp [hlen]
        · have := ih (fsAppend fs path chunk) (tr.update chunk.length) (k + 1)
          simp only [partLoop, hs, he, if_false]
          refine ⟨this.1, ?_, ?_⟩
          · calc tr.downloaded_bytes
                ≤ (tr.update chunk.length).downloaded_bytes := by
                  simp [ProgressTracker.update]
              _ ≤ _ := this.2.1
          · calc (partLoop path sched (fsAppend fs path chunk)
                  (tr.update chunk.length) (k + 1) rest).2.1.downloaded_bytes
                ≤ (tr.update chunk.length).downloaded_bytes
                    + (rest.map List.length).sum := this.2.2
              _ = tr.downloaded_bytes + (chunk.length + (rest.map List.length).sum) := by
                  simp [ProgressTracker.update]; ring
              _ = tr.downloaded_bytes + ((chunk :: rest).map List.length).sum := by
                  simp

theorem make_interruptible_request_cases (c1 c2 : Bool) (net : Option Response) :
    make_interruptible_request c1 c2 net = none
    ∨ ∃ r, net = some r ∧ make_interruptible_request c1 c2 net = some r := by
  cases hc1 : c1
  · cases hn : net with
    | none => left; simp [make_interruptible_request, hn]
    | some r =>
        cases hc2 : c2
        · by_cases h4 : 400 ≤ r.status_code ∧ r.status_code < 600
          · left; simp [make_interruptible_request, hn, h4]
          · right; exact ⟨r, rfl, by simp [make_interruptible_request, hn, h4]⟩
        · left; simp [make_interruptible_request, hn]
  · left; simp [make_interruptible_request]

theorem download_part_tracker (env : WorkerEnv) (start «end» : Int)
    (save_path : String) (part_num : Nat) (fs : FS) (tr : ProgressTracker) :
    (download_part env start «end» save_path part_num fs tr).2.1.total_bytes
        = tr.total_bytes
    ∧ tr.downloaded_bytes
        ≤ (download_part env start «end» save_path part_num fs tr).2.1.downloaded_bytes
    ∧ (download_part env start «end» save_path part_num fs tr).2.1.downloaded_bytes
        ≤ tr.downloaded_bytes + bodyLen env := by
  by_cases hc0 : env.c0
  · simp [download_part, hc0]
  · rcases make_interruptible_request_cases env.c1 env.c2 env.net with hreq | ⟨r, hnet, hreq⟩
    · simp [download_part, hc0, hreq]
    · by_cases h206 : r.status_code = 206
      · have hloop := partLoop_tracker (partPath save_path part_num) env.sched
          r.chunks (fsWrite fs (partPath save_path part_num) []) tr 0
        have hred : download_part env start «end» save_path part_num fs tr
            = partLoop (partPath save_path part_num) env.sched
                (fsWrite fs (partPath save_path part_num) []) tr 0 r.chunks := by
          simp [download_part, hc0, hreq, h206]
        have hb : bodyLen env = (r.chunks.map List.length).sum := by
          simp [bodyLen, hnet]
        rw [hred, hb]
        exact hloop
      · simp [download_part, hc0, hreq, h206]

theorem runWorkers_cons (envs : Nat → WorkerEnv) (save_path : String)
    (fs : FS) (tr : ProgressTracker) (s e : Int) (i : Nat)
    (rest : List (Int × Int × Nat)) :
    runWorkers envs save_path fs tr ((s, e, i) :: rest)
      = ((runWorkers envs save_path
            (download_part (envs i) s e save_path i fs tr).1
            (download_part (envs i) s e save_path i fs tr).2.1 rest).1,
         (runWorkers envs save_path
            (download_part (envs i) s e save_path i fs tr).1
            (download_part (envs i) s e save_path i fs tr).2.1 rest).2.1,
         (download_part (envs i) s e save_path i fs tr).2.2
           && (runWorkers envs save_path
                (download_part (envs i) s e save_path i fs tr).1
                (download_part (envs i) s e save_path i fs tr).2.1 rest).2.2) :=
  rfl

theorem runWorkers_tracker (envs : Nat → WorkerEnv) (save_path : String) :
    ∀ (ranges : List (Int × Int × Nat)) (fs : FS) (tr : ProgressTracker),
      (runWorkers envs save_path fs tr ranges).2.1.total_bytes = tr.total_bytes
      ∧ tr.downloaded_bytes
          ≤ (runWorkers envs save_path fs tr ranges).2.1.downloaded_bytes
      ∧ (runWorkers envs save_path fs tr ranges).2.1.downloaded_bytes
          ≤ tr.downloaded_bytes
            + (ranges.map (fun r => bodyLen (envs r.2.2))).sum := by
  intro ranges
  induction ranges with
  | nil => intro fs tr; simp [runWorkers]
  | cons r rest ih =>
      intro fs tr
      obtain ⟨s, e, i⟩ := r
      have hpart := download_part_tracker (envs i) s e save_path i fs tr
      have hrest := ih (download_part (envs i) s e save_path i fs tr).1
        (download_part (envs i) s e save_path i fs tr).2.1
      rw [runWorkers_cons]
      refine ⟨by rw [hrest.1, hpart.1], le_trans hpart.2.1 hrest.2.1, ?_⟩
      calc (runWorkers envs save_path
              (download_part (envs i) s e save_path i fs tr).1
              (download_part (envs i) s e save_path i fs tr).2.1 rest).2.1.downloaded_bytes
          ≤ (download_part (envs i) s e save_path i fs tr).2.1.downloaded_bytes
              + (rest.map (fun r => bodyLen (envs r.2.2))).sum := hrest.2.2
        _ ≤ (tr.downloaded_bytes + bodyLen (envs i))
              + (rest.map (fun r => bodyLen (envs r.2.2))).sum := by
            exact Nat.add_le_add_right hpart.2.2 _
        _ = tr.downloaded_bytes
              + (((s, e, i) :: rest).map (fun r => bodyLen (envs r.2.2))).sum := by
            simp [Nat.add_assoc]

theorem rangeSizeNat_nonlast (S M i : Nat) (hi : i < M) :
    rangeSizeNat S (M + 1) i = S / (M + 1) := by
  have hiM : i < (M + 1) - 1 := by omega
  unfold rangeSizeNat rangeEnd rangeStart
  simp only [hiM, if_pos]
  have h2 : ((i : Int) * ((S / (M + 1) : Nat) : Int)
        + ((S / (M + 1) : Nat) : Int) - 1
        - (i : Int) * ((S / (M + 1) : Nat) : Int) + 1)
      = ((S / (M + 1) : Nat) : Int) := by ring
  rw [h2, Int.toNat_natCast]

theorem rangeSizeNat_last (S M : Nat) :
    rangeSizeNat S (M + 1) M = S - M * (S / (M + 1)) := by
  have hM : ¬ M < (M + 1) - 1 := by omega
  unfold rangeSizeNat rangeEnd rangeStart
  simp only [hM, if_neg, if_false]
  have h2 : ((S : Int) - 1 - (M : Int) * ((S / (M + 1) : Nat) : Int) + 1)
      = ((S : Int) - ((M * (S / (M + 1)) : Nat) : Int)) := by
    push_cast [Nat.cast_mul]; ring
  rw [h2, Int.toNat_sub]

theorem sum_const_range (M p : Nat) :
    ((List.range M).map (fun _ => p)).sum = M * p := by
  induction M with
  | zero => simp
  | succ M ih =>
      rw [List.range_succ, List.map_append, List.sum_append, ih]
      simp [Nat.succ_mul]

theorem sum_rangeSize (S M : Nat) :
    ((List.range (M + 1)).map (rangeSizeNat S (M + 1))).sum = S := by
  have key : M * (S / (M + 1)) ≤ S :=
    le_trans (Nat.mul_le_mul_right _ (Nat.le_succ M)) (mul_div_le_total S (M + 1))
  rw [List.range_succ, List.map_append, List.sum_append]
  have h1 : (List.range M).map (rangeSizeNat S (M + 1))
      = (List.range M).map (fun _ => S / (M + 1)) :=
    List.map_congr_left (fun i hi => rangeSizeNat_nonlast S M i (List.mem_range.mp hi))
  rw [h1, sum_const_range]
  simp only [List.map_cons, List.map_nil, List.sum_cons, List.sum_nil,
    rangeSizeNat_last, Nat.add_zero]
  generalize hq : M * (S / (M + 1)) = q at key ⊢
  omega

theorem download_multithread_tracker (envs : Nat → WorkerEnv) (nt : Nat)
    (save_path : String) (fs : FS) (tr : ProgressTracker) :
    (download_multithread envs nt save_path fs tr).2.1
      = (runWorkers envs save_path fs tr (buildRanges tr.total_bytes nt)).2.1 := by
  rcases h : runWorkers envs save_path fs tr (buildRanges tr.total_bytes nt)
    with ⟨fs', tr', ok⟩
  simp only [download_multithread]
  rw [h]
  cases ok
  · simp
  · rcases hm : merge_parts fs' save_path nt with ⟨fs'', mok⟩
    simp [hm]

/-- C6: the progress counter can only grow — `update` adds exactly the
(non-negative) chunk length, every loop and orchestration level is monotone
in it, and the total is never modified; and on the ranged path, whenever
each worker's response body is no larger than its requested range (as any
conforming 206 response is), the final `downloaded_bytes` stays within
`total_bytes` of its starting point — in particular a download started at 0
never exceeds the known total. -/
theorem claim_C6 :
    (∀ (tr : ProgressTracker) (n : Nat),
        (tr.update n).downloaded_bytes = tr.downloaded_bytes + n
        ∧ tr.downloaded_bytes ≤ (tr.update n).downloaded_bytes
        ∧ (tr.update n).total_bytes = tr.total_bytes)
    ∧ (∀ (path : String) (sched : Nat → Bool) (fs : FS) (tr : ProgressTracker)
        (k : Nat) (chunks : List (List Nat)),
        tr.downloaded_bytes ≤ (partLoop path sched fs tr k chunks).2.1.downloaded_bytes)
    ∧ (∀ (env : WorkerEnv) (s e : Int) (sp : String) (pn : Nat) (fs : FS)
        (tr : ProgressTracker),
        tr.downloaded_bytes ≤ (download_part env s e sp pn fs tr).2.1.downloaded_bytes)
    ∧ (∀ (envs : Nat → WorkerEnv) (sp : String) (fs : FS) (tr : ProgressTracker)
        (ranges : List (Int × Int × Nat)),
        tr.downloaded_bytes ≤ (runWorkers envs sp fs tr ranges).2.1.downloaded_bytes)
    ∧ (∀ (envs : Nat → WorkerEnv) (nt : Nat) (sp : String) (fs : FS)
        (tr : ProgressTracker),
        (download_multithread envs nt sp fs tr).2.1.total_bytes = tr.total_bytes
        ∧ tr.downloaded_bytes
            ≤ (download_multithread envs nt sp fs tr).2.1.downloaded_bytes)
    ∧ (∀ (envs : Nat → WorkerEnv) (nt : Nat) (sp : String) (fs : FS)
        (tr : ProgressTracker), 1 ≤ nt →
        (∀ i, i < nt → bodyLen (envs i) ≤ rangeSizeNat tr.total_bytes nt i) →
        (download_multithread envs nt sp fs tr).2.1.downloaded_bytes
          ≤ tr.downloaded_bytes + tr.total_bytes) := by
  refine ⟨?_, ?_, ?_, ?_, ?_, ?_⟩
  · intro tr n
    exact ⟨rfl, Nat.le_add_right _ _, rfl⟩
  · intro path sched fs tr k chunks
    exact (partLoop_tracker path sched chunks fs tr k).2.1
  · intro env s e sp pn fs tr
    exact (download_part_tracker env s e sp pn fs tr).2.1
  · intro envs sp fs tr ranges
    exact (runWorkers_tracker envs sp ranges fs tr).2.1
  · intro envs nt sp fs tr
    rw [download_multithread_tracker]
    exact ⟨(runWorkers_tracker envs sp _ fs tr).1,
      (runWorkers_tracker envs sp _ fs tr).2.1⟩
  · intro envs nt sp fs tr hnt hbody
    obtain ⟨M, rfl⟩ : ∃ M, nt = M + 1 := ⟨nt - 1, by omega⟩
    rw [download_multithread_tracker]
    have hrun := (runWorkers_tracker envs sp
      (buildRanges tr.total_bytes (M + 1)) fs tr).2.2
    have hsum : ((buildRanges tr.total_bytes (M + 1)).map
          (fun r => bodyLen (envs r.2.2))).sum
        ≤ ((List.range (M + 1)).map (rangeSizeNat tr.total_bytes (M + 1))).sum := by
      rw [buildRanges, List.map_map]
      exact List.sum_le_sum (fun i hi =>
        hbody i (List.mem_range.mp hi))
    rw [sum_rangeSize] at hsum
    omega

/-- Concrete environment for the C6 witness: two conforming 206 responses of
five bytes each against a ten-byte total. -/
def envC6 : Nat → WorkerEnv :=
  fun _ => ⟨false, false, false, some ⟨206, [[1, 2, 3], [4, 5]]⟩, fun _ => false⟩

theorem claim_C6_witness :
    (1 ≤ 2 ∧ ∀ i, i < 2 →
        bodyLen (envC6 i) ≤ rangeSizeNat (10 : Nat) 2 i)
    ∧ (download_multithread envC6 2 "f" (fun _ => none)
        ⟨10, 0⟩).2.1.downloaded_bytes ≤ 0 + 10 :=
  ⟨⟨by decide, by decide⟩,
    claim_C6.2.2.2.2.2 envC6 2 "f" (fun _ => none) ⟨10, 0⟩ (by decide) (by decide)⟩

theorem download_part_cancelled (env : WorkerEnv) (h : env.c1 = true)
    (s e : Int) (sp : String) (pn : Nat) (fs : FS) (tr : ProgressTracker) :
    download_part env s e sp pn fs tr = (fs, tr, false) := by
  cases hc0 : env.c0 <;>
    simp [download_part, make_interruptible_request, hc0, h]

theorem download_singlethread_cancelled (env : WorkerEnv) (h : env.c1 = true)
    (sp : String) (fs : FS) (tr : ProgressTracker) :
    download_singlethread env sp fs tr = (fs, tr, false) := by
  cases hc0 : env.c0 <;>
    simp [download_singlethread, make_interruptible_request, hc0, h]

theorem runWorkers_cancelled (envs : Nat → WorkerEnv) (sp : String)
    (h : ∀ i, (envs i).c1 = true) :
    ∀ (ranges : List (Int × Int × Nat)) (fs : FS) (tr : ProgressTracker),
      runWorkers envs sp fs tr ranges = (fs, tr, ranges.isEmpty) := by
  intro ranges
  induction ranges with
  | nil => intro fs tr; simp [runWorkers]
  | cons r rest ih =>
      intro fs tr
      obtain ⟨s, e, i⟩ := r
      rw [runWorkers_cons, download_part_cancelled (envs i) (h i)]
      simp [ih fs tr]

theorem download_multithread_cancelled (envs : Nat → WorkerEnv) (nt : Nat)
    (sp : String) (fs : FS) (tr : ProgressTracker)
    (h : ∀ i, (envs i).c1 = true) (hnt : 1 ≤ nt) :
    download_multithread envs nt sp fs tr = (fs, tr, false) := by
  have hlen := buildRanges_length tr.total_bytes nt
  have hne : (buildRanges tr.total_bytes nt).isEmpty = false := by
    cases hb : buildRanges tr.total_bytes nt with
    | nil => rw [hb] at hlen; simp at hlen; omega
    | cons a l => simp
  simp only [download_multithread]
  rw [runWorkers_cancelled envs sp h, hne]
  simp

theorem cleanupRemoveParts_none (sp : String) :
    ∀ (l : List Nat) (fs : FS) (q : String),
      fs q = none → (cleanupRemoveParts sp fs l) q = none := by
  intro l
  induction l with
  | nil => intro fs q h; exact h
  | cons i rest ih =>
      intro fs q h
      simp only [cleanupRemoveParts]
      apply ih
      by_cases hq : q = partPath sp i
      · subst hq
        by_cases hs : (fs (partPath sp i)).isSome
        · simp [hs, fsRemove]
        · simp [hs, h]
      · by_cases hs : (fs (partPath sp i)).isSome <;>
          simp [hs, fsRemove_other _ _ hq, h]

theorem cleanupRemoveParts_gone (sp : String) :
    ∀ (l : List Nat) (fs : FS) (i : Nat), i ∈ l →
      (cleanupRemoveParts sp fs l) (partPath sp i) = none := by
  intro l
  induction l with
  | nil => intro fs i h; simp at h
  | cons j rest ih =>
      intro fs i hi
      simp only [cleanupRemoveParts]
      rcases List.mem_cons.mp hi with rfl | hrest
      · apply cleanupRemoveParts_none
        by_cases hs : (fs (partPath sp i)).isSome
        · simp [hs, fsRemove]
        · simp only [hs, if_false, Bool.false_eq_true]
          exact Option.not_isSome_iff_eq_none.mp (by simp [hs])
      · exact ih _ i hrest

theorem cleanupRemoveParts_frame (sp : String) :
    ∀ (l : List Nat) (fs : FS) (q : String),
      (∀ i ∈ l, q ≠ partPath sp i) →
      (cleanupRemoveParts sp fs l) q = fs q := by
  intro l
  induction l with
  | nil => intro fs q _; rfl
  | cons i rest ih =>
      intro fs q hq
      simp only [cleanupRemoveParts]
      rw [ih _ q (fun j hj => hq j (by simp [hj]))]
      by_cases hs : (fs (partPath sp i)).isSome <;>
        simp [hs, fsRemove_other _ _ (hq i (by simp))]

theorem cleanup_dest (fs : FS) (sp : String) (n : Nat) :
    (cleanup_partial_files fs sp n) sp = none := by
  unfold cleanup_partial_files
  apply cleanupRemoveParts_none
  by_cases hs : (fs sp).isSome
  · simp [hs, fsRemove]
  · simp only [hs, if_false, Bool.false_eq_true]
    exact Option.not_isSome_iff_eq_none.mp (by simp [hs])

theorem cleanup_part (fs : FS) (sp : String) (n i : Nat) (hi : i < n) :
    (cleanup_partial_files fs sp n) (partPath sp i) = none := by
  unfold cleanup_partial_files
  exact cleanupRemoveParts_gone sp _ _ i (List.mem_range.mpr hi)

theorem cleanup_frame (fs : FS) (sp : String) (n : Nat) (p : String)
    (hp : p ≠ sp) (hpp : ∀ i, i < n → p ≠ partPath sp i) :
    (cleanup_partial_files fs sp n) p = fs p := by
  unfold cleanup_partial_files
  rw [cleanupRemoveParts_frame sp _ _ p
    (fun i hi => hpp i (List.mem_range.mp hi))]
  by_cases hs : (fs sp).isSome <;> simp [hs, fsRemove_other _ _ hp]

/-- C7: when the cancellation flag is already set at every worker's
pre-request check (which is what an irreversible token set before any worker
issues its request guarantees), every worker — ranged or single-stream —
returns failure leaving both the disk and the tracker untouched, and
`download` returns `success = false` with `downloaded_bytes = 0`, no
destination file, no part files, and no other path modified beyond the
cleanup removals. -/
theorem claim_C7 (num_threads : Nat) (headCL getCL : Option (Option Nat))
    (supports_range : Bool) (envs : Nat → WorkerEnv) (senv : WorkerEnv)
    (save_path : String) (fs0 : FS)
    (hc : ∀ i, (envs i).c1 = true) (hs : senv.c1 = true) :
    (download num_threads headCL getCL supports_range envs senv save_path
        fs0).success = false
    ∧ (download num_threads headCL getCL supports_range envs senv save_path
        fs0).tracker.downloaded_bytes = 0
    ∧ (download num_threads headCL getCL supports_range envs senv save_path
        fs0).fs save_path = none
    ∧ (∀ i, i < num_threads →
        (download num_threads headCL getCL supports_range envs senv save_path
          fs0).fs (partPath save_path i) = none)
    ∧ (∀ p, p ≠ save_path → (∀ i, i < num_threads → p ≠ partPath save_path i) →
        (download num_threads headCL getCL supports_range envs senv save_path
          fs0).fs p = fs0 p)
    ∧ (∀ env : WorkerEnv, env.c1 = true → ∀ (s e : Int) (pn : Nat) (fs : FS)
        (tr : ProgressTracker),
        download_part env s e save_path pn fs tr = (fs, tr, false)) := by
  have hrun : (if (supports_range && decide (1 < num_threads))
      then download_multithread envs num_threads save_path fs0
        ⟨if get_file_size headCL getCL ≤ 0 then 1
          else get_file_size headCL getCL, 0⟩
      else download_singlethread senv save_path fs0
        ⟨if get_file_size headCL getCL ≤ 0 then 1
          else get_file_size headCL getCL, 0⟩)
      = (fs0, ⟨if get_file_size headCL getCL ≤ 0 then 1
          else get_file_size headCL getCL, 0⟩, false) := by
    by_cases hmt : (supports_range && decide (1 < num_threads)) = true
    · rw [if_pos hmt]
      have hnt : 1 ≤ num_threads := by
        have h' : supports_range = true ∧ 1 < num_threads := by simpa using hmt
        omega
      exact download_multithread_cancelled envs num_threads save_path fs0 _ hc hnt
    · rw [if_neg hmt]
      exact download_singlethread_cancelled senv hs save_path fs0 _
  have hd : download num_threads headCL getCL supports_range envs senv
      save_path fs0
      = { success := false
          fs := cleanup_partial_files fs0 save_path num_threads
          tracker := ⟨if get_file_size headCL getCL ≤ 0 then 1
            else get_file_size headCL getCL, 0⟩
          usedMultithread := supports_range && decide (1 < num_threads)
          workersSpawned := if supports_range && decide (1 < num_threads)
            then (buildRanges (if get_file_size headCL getCL ≤ 0 then 1
              else get_file_size headCL getCL) num_threads).length
            else 1 } := by
    simp only [download]
    rw [hrun]
    simp
  rw [hd]
  refine ⟨rfl, rfl, cleanup_dest fs0 save_path num_threads, ?_, ?_, ?_⟩
  · intro i hi
    exact cleanup_part fs0 save_path num_threads i hi
  · intro p hp hpp
    exact cleanup_frame fs0 save_path num_threads p hp hpp
  · intro env henv s e pn fs tr
    exact download_part_cancelled env henv s e save_path pn fs tr

/-- Worker environments for the C7 witness: the token is set at every
checkpoint. -/
def envC7 : Nat → WorkerEnv := fun _ => ⟨true, true, true, none, fun _ => true⟩

/-- Single-stream environment for the C7 witness. -/
def senvC7 : WorkerEnv := ⟨true, true, true, none, fun _ => true⟩

/-- Starting disk state for the C7 witness: a file already sits at the
destination path. -/
def fsC7 : FS := fun q => if q = "f" then some [9] else none

theorem claim_C7_witness :
    ((∀ i : Nat, (envC7 i).c1 = true) ∧ senvC7.c1 = true)
    ∧ (download 4 none none true envC7 senvC7 "f" fsC7).fs "f" = none :=
  ⟨⟨fun _ => rfl, rfl⟩,
    (claim_C7 4 none none true envC7 senvC7 "f" fsC7 (fun _ => rfl) rfl).2.2.1⟩

/-- C8: from any state of the orchestrator's wait loop in which the current
future is not yet done and the cancellation token reads set, the loop
returns at that very tick — it does not keep polling for the current future
or move on to later ones — with `f.cancel()` requested for every submitted
future (hence every not-yet-finished one) and a failure outcome. -/
theorem claim_C8 (c : Nat → Bool) (futures : List FutureState)
    (f : FutureState) (rest : List FutureState) (t fuel : Nat)
    (hdone : t < f.doneAt) (hc : c t = true) (hf : 0 < fuel) :
    waitAllGo c futures (f :: rest) t fuel
      = .cancelled t (List.range futures.length)
    ∧ (∀ j, j < futures.length → j ∈ List.range futures.length)
    ∧ (waitAllGo c futures (f :: rest) t fuel).toSuccess = false := by
  obtain ⟨m, rfl⟩ : ∃ m, fuel = m + 1 := ⟨fuel - 1, by omega⟩
  have hw : waitFuture c f.doneAt t (m + 1) = .cancelledAt t := by
    rw [waitFuture]
    rw [if_neg (by omega), if_pos hc]
  have h1 : waitAllGo c futures (f :: rest) t (m + 1)
      = .cancelled t (List.range futures.length) := by
    rw [waitAllGo, hw]
  refine ⟨h1, fun j hj => List.mem_range.mpr hj, ?_⟩
  rw [h1]
  rfl

theorem claim_C8_witness :
    (0 < (5 : Nat) ∧ (fun _ => true : Nat → Bool) 0 = true ∧ 0 < (3 : Nat))
    ∧ waitAllGo (fun _ => true) [⟨5, true⟩, ⟨7, false⟩]
        [⟨5, true⟩, ⟨7, false⟩] 0 3 = .cancelled 0 (List.range 2) :=
  ⟨⟨by decide, rfl, by decide⟩,
    (claim_C8 (fun _ => true) [⟨5, true⟩, ⟨7, false⟩] ⟨5, true⟩ [⟨7, false⟩]
      0 3 (by decide) rfl (by decide)).1⟩

theorem download_singlethread_tracker_total (env : WorkerEnv) (sp : String)
    (fs : FS) (tr : ProgressTracker) :
    (download_singlethread env sp fs tr).2.1.total_bytes = tr.total_bytes := by
  by_cases hc0 : env.c0
  · simp [download_singlethread, hc0]
  · rcases make_interruptible_request_cases env.c1 env.c2 env.net
      with hreq | ⟨r, hnet, hreq⟩
    · simp [download_singlethread, hc0, hreq]
    · have hred : download_singlethread env sp fs tr
          = partLoop sp env.sched (fsWrite fs sp []) tr 0 r.chunks := by
        simp [download_singlethread, hc0, hreq]
      rw [hred]
      exact (partLoop_tracker sp env.sched r.chunks (fsWrite fs sp []) tr 0).1

theorem download_tracker_total (num_threads : Nat)
    (headCL getCL : Option (Option Nat)) (supports_range : Bool)
    (envs : Nat → WorkerEnv) (senv : WorkerEnv) (save_path : String)
    (fs0 : FS) :
    (download num_threads headCL getCL supports_range envs senv save_path
        fs0).tracker.total_bytes
      = (if get_file_size headCL getCL ≤ 0 then 1
          else get_file_size headCL getCL) := by
  simp only [download]
  by_cases hmt : (supports_range && decide (1 < num_threads)) = true
  · rw [if_pos hmt]
    rw [show (download_multithread envs num_threads save_path fs0
        ⟨if get_file_size headCL getCL ≤ 0 then 1
          else get_file_size headCL getCL, 0⟩).2.1
      = (runWorkers envs save_path fs0
          ⟨if get_file_size headCL getCL ≤ 0 then 1
            else get_file_size headCL getCL, 0⟩
          (buildRanges (ProgressTracker.mk (if get_file_size headCL getCL ≤ 0
            then 1 else get_file_size headCL getCL) 0).total_bytes
            num_threads)).2.1
      from download_multithread_tracker envs num_threads save_path fs0 _]
    exact (runWorkers_tracker envs save_path _ fs0 _).1
  · rw [if_neg hmt]
    exact download_singlethread_tracker_total senv save_path fs0 _

/-- C9: the size probe cannot tell a genuinely empty resource from one whose
size is unknown — a `Content-Length: 0` header (a truthy string in Python)
makes `_get_file_size` return `0` from the first successful response, the
same value as a failed probe — and `download` then substitutes the sentinel
total of `1`, so the progress state carries `total_bytes = 1` and its
percentage arithmetic treats the download as one byte large. -/
theorem claim_C9 (g : Option (Option Nat)) (num_threads : Nat)
    (supports_range : Bool) (envs : Nat → WorkerEnv) (senv : WorkerEnv)
    (save_path : String) (fs0 : FS) :
    get_file_size (some (some 0)) g = 0
    ∧ get_file_size none none = 0
    ∧ (download num_threads (some (some 0)) g supports_range envs senv
        save_path fs0).tracker.total_bytes = 1
    ∧ (download num_threads none none supports_range envs senv
        save_path fs0).tracker.total_bytes = 1
    ∧ (∀ tr : ProgressTracker, tr.total_bytes = 1 →
        (tr.get_progress).percentage = (tr.downloaded_bytes : ℚ) * 100) := by
  refine ⟨rfl, rfl, ?_, ?_, ?_⟩
  · rw [download_tracker_total]
    rfl
  · rw [download_tracker_total]
    rfl
  · intro tr htr
    simp [ProgressTracker.get_progress, htr]

theorem claim_C9_witness :
    ((⟨1, 3⟩ : ProgressTracker).total_bytes = 1)
    ∧ ((⟨1, 3⟩ : ProgressTracker).get_progress).percentage = (3 : ℚ) * 100 :=
  ⟨rfl,
    (claim_C9 none 4 false (fun _ => ⟨true, true, true, none, fun _ => true⟩)
      ⟨true, true, true, none, fun _ => true⟩ "f" (fun _ => none)).2.2.2.2
      ⟨1, 3⟩ rfl⟩

/-- C10: the failure-path cleanup removes whatever file sits at `save_path`,
whether or not this invocation wrote it — a destination file that existed
before `download` was called is deleted by a failing run, so the error path
is not atomic with respect to the prior disk state at `save_path`. -/
theorem claim_C10 :
    (∀ (fs : FS) (sp : String) (n : Nat) (v : List Nat),
        fs sp = some v → (cleanup_partial_files fs sp n) sp = none)
    ∧ (∀ (num_threads : Nat) (headCL getCL : Option (Option Nat))
        (supports_range : Bool) (envs : Nat → WorkerEnv) (senv : WorkerEnv)
        (save_path : String) (fs0 : FS),
        (download num_threads headCL getCL supports_range envs senv save_path
          fs0).success = false →
        (download num_threads headCL getCL supports_range envs senv save_path
          fs0).fs save_path = none) := by
  constructor
  · intro fs sp n v _
    exact cleanup_dest fs sp n
  · intro num_threads headCL getCL supports_range envs senv save_path fs0 hfail
    have hfail' : (if (supports_range && decide (1 < num_threads))
        then download_multithread envs num_threads save_path fs0
          ⟨if get_file_size headCL getCL ≤ 0 then 1
            else get_file_size headCL getCL, 0⟩
        else download_singlethread senv save_path fs0
          ⟨if get_file_size headCL getCL ≤ 0 then 1
            else get_file_size headCL getCL, 0⟩).2.2 = false := hfail
    show (if (if (supports_range && decide (1 < num_threads))
        then download_multithread envs num_threads save_path fs0
          ⟨if get_file_size headCL getCL ≤ 0 then 1
            else get_file_size headCL getCL, 0⟩
        else download_singlethread senv save_path fs0
          ⟨if get_file_size headCL getCL ≤ 0 then 1
            else get_file_size headCL getCL, 0⟩).2.2 = true
      then _ else cleanup_partial_files _ save_path num_threads) save_path = none
    rw [hfail']
    simp only [Bool.false_eq_true, if_false]
    exact cleanup_dest _ save_path num_threads

/-- Starting disk state for the C10 witness: a pre-existing destination
file that the failing run never writes. -/
def fsC10 : FS := fun q => if q = "f" then some [7] else none

theorem claim_C10_witness :
    fsC10 "f" = some [7] ∧ (cleanup_partial_files fsC10 "f" 3) "f" = none :=
  ⟨rfl, claim_C10.1 fsC10 "f" 3 [7] rfl⟩
